import Mathlib

/-!
Shallow embedding of `src/main.rs` of the `bfo` repository: an optimising
compiler and interpreter for the eight-symbol tape language.

The compiler (`compile`, `optimise_loop` and its four rewrites) and the
interpreter (`step`, `runFuel`) are translated function-by-function from the
Rust source.  Machine integers are modelled explicitly: cell values are `Nat`
reduced mod 256 (`u8` wrapping arithmetic), jump offsets are `Int` with the
release-mode `i32` wrap where the source casts, and the data / instruction
pointers are `Nat` with the `usize` casts spelled out.  Places where the Rust
program aborts (integer-underflow of `start - 1` followed by an out-of-bounds
index, or an out-of-range tape access) are modelled as explicit error results
(`CompileRes.panicked`, `StepRes.trapped`).
-/

namespace Bfo

/-- The opcode enumeration of the instruction model (`enum Op` in the source). -/
inductive Op where
  | Add | Sub | Left | Right | PutCh | GetCh
  | J | JZ | JNZ | Set | CMul | CNMul | SeekL | SeekR
deriving DecidableEq, Repr

/-- One compiled instruction (`struct Instr`): opcode, `u8` repetition
argument, `i32` jump/cell offset. -/
structure Instr where
  opcode : Op
  arg : Nat
  off : Int
deriving DecidableEq, Repr

/-- The six optimisation toggles (`struct Options`). -/
structure Options where
  fuse_adjacent : Bool
  fuse_set_add : Bool
  loop_set_zero : Bool
  loop_copy_multiply : Bool
  loop_seek_lr : Bool
  loop_set_jump : Bool
deriving DecidableEq, Repr

/-- The option set hard-coded in `main`. -/
def defaultOpts : Options :=
  ⟨true, true, true, true, false, true⟩

/-- Model of `fn opcode`: map a significant character to its opcode, anything else is
skipped. -/
def opcode (c : Char) : Option Op :=
  match c with
  | '+' => some Op.Add
  | '-' => some Op.Sub
  | '<' => some Op.Left
  | '>' => some Op.Right
  | '.' => some Op.PutCh
  | ',' => some Op.GetCh
  | '[' => some Op.JZ
  | ']' => some Op.JNZ
  | _ => none

/-- Model of `u8::wrapping_add` on cell values kept below 256. -/
def wadd (x a : Nat) : Nat := (x + a) % 256

/-- Model of `u8::wrapping_sub` on cell values kept below 256. -/
def wsub (x a : Nat) : Nat := (x + 256 - a % 256) % 256

/-- Largest `usize` value. -/
def usizeMax : Nat := 2 ^ 64 - 1

/-- Cast `n as i32` on a `usize` value: truncate to 32 bits, two's complement. -/
def toI32 (n : Nat) : Int :=
  if (n : Int) % 2 ^ 32 < 2 ^ 31 then (n : Int) % 2 ^ 32
  else (n : Int) % 2 ^ 32 - 2 ^ 32

/-- Release-mode `i32` arithmetic result: wrap into `[-2^31, 2^31)`. -/
def wrapI32 (z : Int) : Int :=
  if z % 2 ^ 32 < 2 ^ 31 then z % 2 ^ 32 else z % 2 ^ 32 - 2 ^ 32

/-- Cast `z as usize` on an `i32` value: sign-extend, reduce mod `2^64`. -/
def toUsize (z : Int) : Nat := (z % (2 ^ 64)).toNat

/-- Cast chain `(ip as i32 + off) as usize`, the jump-target computation of
`run`. -/
def jumpIp (ip : Nat) (off : Int) : Nat := toUsize (wrapI32 (toI32 ip + off))

/-- Increment `ip += 1` on a `usize`. -/
def ipInc (ip : Nat) : Nat := (ip + 1) % 2 ^ 64

/-- In-range list read with a dummy default; every use in the model is guarded
exactly where the Rust indexing is guarded. -/
def nthI (l : List Instr) (i : Nat) : Instr :=
  (l.get? i).getD ⟨Op.Add, 0, 0⟩

/-- Model of `instrs[i].arg = a` (in-place update of one field at one index). -/
def modArg (l : List Instr) (i : Nat) (a : Nat) : List Instr :=
  match l.get? i with
  | some ins => l.set i { ins with arg := a }
  | none => l

/-- Model of `instrs[i].off = v` (in-place update of one field at one index). -/
def modOff (l : List Instr) (i : Nat) (v : Int) : List Instr :=
  match l.get? i with
  | some ins => l.set i { ins with off := v }
  | none => l

/-- Body scan of the `set_zero` closure: `+1` per `Add` instruction, `-1` per
`Sub` instruction, abort on anything else.  (The source counts instructions,
not their `arg` weights.) -/
def szDelta : List Instr → Option Int
  | [] => some 0
  | x :: xs =>
    match x.opcode with
    | Op.Add => (szDelta xs).map (· + 1)
    | Op.Sub => (szDelta xs).map (· - 1)
    | _ => none

/-- The `set_zero` rewrite: a loop body of only `Add`/`Sub` with nonzero
instruction-count delta becomes `Set 0`. -/
def setZero (code : List Instr) (start : Nat) (opts : Options) :
    Option (List Instr) :=
  if opts.loop_set_zero then
    match szDelta ((code.take (code.length - 1)).drop (start + 1)) with
    | some d => if d ≠ 0 then some [⟨Op.Set, 0, 0⟩] else none
    | none => none
  else none

/-- Body scan of the `copy_multiply` closure: running cell offset, delta of the
entry cell, and the recorded `(delta, offset)` pairs in insertion order. -/
def cmWalk : List Instr → Int → Int → List (Int × Int) →
    Option (Int × Int × List (Int × Int))
  | [], fstDel, off, deltas => some (fstDel, off, deltas)
  | x :: xs, fstDel, off, deltas =>
    match x.opcode with
    | Op.Right => cmWalk xs fstDel (off + (x.arg : Int)) deltas
    | Op.Left =>
      if (x.arg : Int) ≤ off then cmWalk xs fstDel (off - (x.arg : Int)) deltas
      else none
    | Op.Add =>
      if off ≠ 0 then cmWalk xs fstDel off (deltas ++ [((x.arg : Int), off)])
      else cmWalk xs (fstDel + (x.arg : Int)) off deltas
    | Op.Sub =>
      if off ≠ 0 then cmWalk xs fstDel off (deltas ++ [(-(x.arg : Int), off)])
      else cmWalk xs (fstDel - (x.arg : Int)) off deltas
    | _ => none

/-- Build the replacement instructions of `copy_multiply`: one `CMul`/`CNMul`
per recorded pair (`as u8` truncates mod 256), then `Set 0`. -/
def cmBuild (deltas : List (Int × Int)) : List Instr :=
  deltas.map (fun p =>
    if p.1 < 0 then ⟨Op.CNMul, (-p.1).toNat % 256, p.2⟩
    else ⟨Op.CMul, p.1.toNat % 256, p.2⟩)

/-- The `copy_multiply` rewrite. -/
def copyMultiply (code : List Instr) (start : Nat) (opts : Options) :
    Option (List Instr) :=
  if opts.loop_copy_multiply then
    if code.length ≤ start + 2 then none
    else
      match cmWalk ((code.take (code.length - 1)).drop (start + 1)) 0 0 [] with
      | some (fstDel, off, deltas) =>
        if off ≠ 0 then none
        else if fstDel ≠ -1 then none
        else some (cmBuild deltas ++ [⟨Op.Set, 0, 0⟩])
      | none => none
  else none

/-- The `seek_lr` rewrite: a loop whose body is exactly `Left 1` or `Right 1`
becomes a single `SeekL`/`SeekR`. -/
def seekLr (code : List Instr) (start : Nat) (opts : Options) :
    Option (List Instr) :=
  if opts.loop_seek_lr then
    if code.length = start + 3 then
      match (nthI code (start + 1)).opcode with
      | Op.Left =>
        if (nthI code (start + 1)).arg = 1 then some [⟨Op.SeekL, 0, 0⟩]
        else none
      | Op.Right =>
        if (nthI code (start + 1)).arg = 1 then some [⟨Op.SeekR, 0, 0⟩]
        else none
      | _ => none
    else none
  else none

/-- The `set_jump` rewrite.  The source reads `code[start - 1]` before its
`start > 0` guard; with `start = 0` the index computation underflows and the
program aborts, modelled by `Except.error ()`. -/
def setJump (code : List Instr) (start : Nat) (opts : Options) :
    Except Unit (Option (List Instr)) :=
  if opts.loop_set_jump then
    if start = 0 then Except.error ()
    else
      let before1 := nthI code (start - 1)
      let before2 := nthI code (code.length - 2)
      if before1.opcode = Op.Set ∧ before1.arg = 0 then
        Except.ok (some [])
      else if before2.opcode = Op.Set then
        let body := (code.take (code.length - 2)).drop start
        if before2.arg = 0 then
          Except.ok (some (modOff body 0 ((nthI body 0).off - 2)))
        else
          Except.ok (some (body ++ [⟨Op.J, 0, (nthI code (code.length - 1)).off⟩]))
      else Except.ok none
  else Except.ok none

/-- Model of `fn optimise_loop`.  The Rust `a.or(b.or(c.or(d)))` evaluates all four
closures eagerly, so a panic inside `set_jump` fires even when an earlier
rewrite matches. -/
def optimise_loop (code : List Instr) (start : Nat) (opts : Options) :
    Except Unit (Option (List Instr)) :=
  match setJump code start opts with
  | Except.error e => Except.error e
  | Except.ok sj =>
    Except.ok ((setZero code start opts).orElse fun _ =>
      (copyMultiply code start opts).orElse fun _ =>
        (seekLr code start opts).orElse fun _ => sj)

/-- Compiler state: emitted instructions, stack of open-loop `JZ` indices, and
the run-length accumulator pair. -/
structure CState where
  instrs : List Instr
  jumps : List Nat
  accumulating : Option Op
  accumulated : Nat
deriving Repr

/-- Result of `fn compile`: an instruction vector, the single bracket-error
value (`None` in the source), or an abort. -/
inductive CompileRes where
  | ok (instrs : List Instr)
  | err
  | panicked
deriving DecidableEq, Repr

/-- Per-character error: bracket error (early `return None`) or abort. -/
inductive CErr where
  | brk
  | pan
deriving DecidableEq, Repr

/-- The accumulator-flush block: emit the squashed instruction, folding it into
a directly preceding `Set` when `fuse_set_add` is on. -/
def flushInstr (opts : Options) (instrs : List Instr) (accOp : Op)
    (accN : Nat) : List Instr :=
  if 0 < instrs.length ∧ opts.fuse_set_add then
    match (nthI instrs (instrs.length - 1)).opcode, accOp with
    | Op.Set, Op.Add =>
      modArg instrs (instrs.length - 1)
        (wadd (nthI instrs (instrs.length - 1)).arg accN)
    | Op.Set, Op.Sub =>
      modArg instrs (instrs.length - 1)
        (wsub (nthI instrs (instrs.length - 1)).arg accN)
    | _, _ => instrs ++ [⟨accOp, accN, 0⟩]
  else instrs ++ [⟨accOp, accN, 0⟩]

/-- The accumulator-flush decision for a non-empty accumulator. -/
def flushStateSome (opts : Options) (st : CState) (op accOp : Op) : CState :=
  if accOp ≠ op ∨ st.accumulated = 255 ∨ ¬opts.fuse_adjacent then
    { st with
      instrs := flushInstr opts st.instrs accOp st.accumulated,
      accumulating := none,
      accumulated := 0 }
  else st

/-- The "store the squashed opcode" block at the head of the character loop:
flush the accumulator when the operation changes, the count saturates, or
fusing is off. -/
def flushState (opts : Options) (st : CState) (op : Op) : CState :=
  match st.accumulating with
  | some accOp => flushStateSome opts st op accOp
  | none => st

/-- The per-opcode `match` of the character loop (run after the flush).  The
loop-closing offsets are computed as the source does: `usize` values cast to
`i32` with truncation, then subtracted and negated with release-mode `i32`
wrapping. -/
def emitOp (opts : Options) (st : CState) (op : Op) : Except CErr CState :=
  match op with
  | Op.Add | Op.Sub | Op.Left | Op.Right | Op.PutCh | Op.GetCh =>
    Except.ok { st with
      accumulating := some op,
      accumulated := (st.accumulated + 1) % 256 }
  | Op.JZ =>
    Except.ok { st with
      instrs := st.instrs ++ [⟨Op.JZ, 0, 0⟩],
      jumps := st.instrs.length :: st.jumps }
  | Op.JNZ =>
    match st.jumps with
    | [] => Except.error CErr.brk
    | start :: rest =>
      match optimise_loop
          (modOff (st.instrs ++
            [⟨Op.JNZ, 0, wrapI32 (toI32 start - toI32 st.instrs.length)⟩])
            start (wrapI32 (-(wrapI32 (toI32 start - toI32 st.instrs.length)))))
          start opts with
      | Except.error _ => Except.error CErr.pan
      | Except.ok none =>
        Except.ok { st with
          instrs := modOff (st.instrs ++
            [⟨Op.JNZ, 0, wrapI32 (toI32 start - toI32 st.instrs.length)⟩])
            start (wrapI32 (-(wrapI32 (toI32 start - toI32 st.instrs.length)))),
          jumps := rest }
      | Except.ok (some r) =>
        Except.ok { st with
          instrs := (modOff (st.instrs ++
            [⟨Op.JNZ, 0, wrapI32 (toI32 start - toI32 st.instrs.length)⟩])
            start
            (wrapI32 (-(wrapI32 (toI32 start - toI32 st.instrs.length))))).take
              start ++ r,
          jumps := rest }
  | _ => Except.error CErr.pan

/-- Handling of one significant character of the source. -/
def compileChar (opts : Options) (st : CState) (c : Char) :
    Except CErr CState :=
  match opcode c with
  | none => Except.ok st
  | some op => emitOp opts (flushState opts st op) op

/-- The character loop of `fn compile`, then the final accumulator flush and
the open-bracket check. -/
def compileGo (opts : Options) : List Char → CState → CompileRes
  | [], st =>
    match st.accumulating with
    | some accOp =>
      if st.jumps = [] then
        CompileRes.ok (st.instrs ++ [⟨accOp, st.accumulated, 0⟩])
      else CompileRes.err
    | none =>
      if st.jumps = [] then CompileRes.ok st.instrs else CompileRes.err
  | c :: cs, st =>
    match compileChar opts st c with
    | Except.ok st' => compileGo opts cs st'
    | Except.error CErr.brk => CompileRes.err
    | Except.error CErr.pan => CompileRes.panicked

/-- Model of `fn compile`. -/
def compile (code : List Char) (opts : Options) : CompileRes :=
  compileGo opts code ⟨[], [], none, 0⟩

/-! ## Interpreter -/

/-- Interpreter state: instruction pointer, data pointer, tape (all reads and
writes are guarded by the 30000 bound, as the Rust array indexing is), the
remaining stdin bytes and the stdout bytes written so far. -/
structure Config where
  ip : Nat
  dp : Nat
  mem : Nat → Nat
  stdin : List Nat
  stdout : List Nat

/-- The zero-filled initial state over a given input. -/
def initConfig (stdin : List Nat) : Config :=
  ⟨0, 0, fun _ => 0, stdin, []⟩

/-- Write one cell. -/
def memSet (m : Nat → Nat) (i v : Nat) : Nat → Nat :=
  fun j => if j = i then v else m j

/-- Output of one cell as the source prints it: the UTF-8 bytes of the code point `v`
(one byte below 128, two bytes for 128..255). -/
def putBytes (v : Nat) : List Nat :=
  if v < 128 then [v] else [192 + v / 64, 128 + v % 64]

/-- The `SeekL` inner loop; structural recursion on `dp`.  Reading a cell at
or beyond 30000 aborts, and so does the `dp -= 1` underflow at `dp = 0` (in
the source it wraps to `usize::MAX` and the following tape read aborts). -/
def seekLAux (m : Nat → Nat) : Nat → Option Nat
  | 0 => if m 0 = 0 then some 0 else none
  | d + 1 =>
    if 30000 ≤ d + 1 then none
    else if m (d + 1) = 0 then some (d + 1)
    else seekLAux m d

/-- The `SeekR` inner loop; the fuel only bounds the recursion and is never
exhausted before `dp` reaches the tape end (callers pass 30000). -/
def seekRAux (m : Nat → Nat) : Nat → Nat → Option Nat
  | 0, dp =>
    if 30000 ≤ dp then none
    else if m dp = 0 then some dp
    else none
  | f + 1, dp =>
    if 30000 ≤ dp then none
    else if m dp = 0 then some dp
    else seekRAux m f (dp + 1)

/-- Result of one dispatch step: next state, normal exit of the `while` loop,
or abort (out-of-bounds tape access). -/
inductive StepRes where
  | ok (c : Config)
  | halted
  | trapped

/-- One iteration of the dispatch loop of `fn run`. -/
def step (code : List Instr) (c : Config) : StepRes :=
  match code.get? c.ip with
  | none => StepRes.halted
  | some instr =>
    match instr.opcode with
    | Op.Add =>
      if c.dp < 30000 then
        StepRes.ok { c with
          mem := memSet c.mem c.dp (wadd (c.mem c.dp) instr.arg),
          ip := ipInc c.ip }
      else StepRes.trapped
    | Op.Sub =>
      if c.dp < 30000 then
        StepRes.ok { c with
          mem := memSet c.mem c.dp (wsub (c.mem c.dp) instr.arg),
          ip := ipInc c.ip }
      else StepRes.trapped
    | Op.Left =>
      StepRes.ok { c with dp := c.dp - instr.arg, ip := ipInc c.ip }
    | Op.Right =>
      StepRes.ok { c with dp := min usizeMax (c.dp + instr.arg), ip := ipInc c.ip }
    | Op.PutCh =>
      if c.dp < 30000 then
        StepRes.ok { c with
          stdout := c.stdout ++ (List.replicate instr.arg (putBytes (c.mem c.dp))).flatten,
          ip := ipInc c.ip }
      else StepRes.trapped
    | Op.GetCh =>
      match (c.stdin.take instr.arg).getLast? with
      | none => StepRes.ok { c with ip := ipInc c.ip }
      | some b =>
        if c.dp < 30000 then
          StepRes.ok { c with
            mem := memSet c.mem c.dp (b % 256),
            stdin := c.stdin.drop instr.arg,
            ip := ipInc c.ip }
        else StepRes.trapped
    | Op.J =>
      StepRes.ok { c with ip := ipInc (jumpIp c.ip instr.off) }
    | Op.JZ =>
      if c.dp < 30000 then
        if c.mem c.dp = 0 then
          StepRes.ok { c with ip := ipInc (jumpIp c.ip instr.off) }
        else StepRes.ok { c with ip := ipInc c.ip }
      else StepRes.trapped
    | Op.JNZ =>
      if c.dp < 30000 then
        if c.mem c.dp ≠ 0 then
          StepRes.ok { c with ip := ipInc (jumpIp c.ip instr.off) }
        else StepRes.ok { c with ip := ipInc c.ip }
      else StepRes.trapped
    | Op.Set =>
      if c.dp < 30000 then
        StepRes.ok { c with
          mem := memSet c.mem c.dp (instr.arg % 256),
          ip := ipInc c.ip }
      else StepRes.trapped
    | Op.CMul =>
      let tgt := toUsize (wrapI32 (toI32 c.dp + instr.off))
      if c.dp < 30000 ∧ tgt < 30000 then
        StepRes.ok { c with
          mem := memSet c.mem tgt (wadd (c.mem tgt) (c.mem c.dp * instr.arg % 256)),
          ip := ipInc c.ip }
      else StepRes.trapped
    | Op.CNMul =>
      let tgt := toUsize (wrapI32 (toI32 c.dp + instr.off))
      if c.dp < 30000 ∧ tgt < 30000 then
        StepRes.ok { c with
          mem := memSet c.mem tgt (wsub (c.mem tgt) (c.mem c.dp * instr.arg % 256)),
          ip := ipInc c.ip }
      else StepRes.trapped
    | Op.SeekL =>
      match seekLAux c.mem c.dp with
      | some dp' => StepRes.ok { c with dp := dp', ip := ipInc c.ip }
      | none => StepRes.trapped
    | Op.SeekR =>
      match seekRAux c.mem 30000 c.dp with
      | some dp' => StepRes.ok { c with dp := dp', ip := ipInc c.ip }
      | none => StepRes.trapped

/-- Iterate the dispatch loop with explicit fuel; `some` is a normal exit of
`fn run` within the fuel. -/
def runFuel (code : List Instr) : Nat → Config → Option Config
  | 0, _ => none
  | n + 1, c =>
    match step code c with
    | StepRes.ok c' => runFuel code n c'
    | StepRes.halted => some c
    | StepRes.trapped => none

/-- Projection of a successful step to the stdout written so far. -/
def stepOut (code : List Instr) (c : Config) : Option (List Nat) :=
  match step code c with
  | StepRes.ok c' => some c'.stdout
  | _ => none

/-- Projection of a successful step to the data pointer. -/
def stepDp (code : List Instr) (c : Config) : Option Nat :=
  match step code c with
  | StepRes.ok c' => some c'.dp
  | _ => none

/-- Single-step relation of the interpreter. -/
def StepsTo (code : List Instr) (a b : Config) : Prop :=
  step code a = StepRes.ok b

/-- Multi-step execution relation. -/
def Reaches (code : List Instr) : Config → Config → Prop :=
  Relation.ReflTransGen (StepsTo code)

/-- A state with no successor: the dispatch loop has exited (or aborted). -/
def NoStep (code : List Instr) (c : Config) : Prop :=
  ∀ u, ¬ StepsTo code c u

/-! ## Spec-side notions used to state the claims -/

/-- The spec's notion of bracket balance of a source text: a running depth of
open `[` that never goes negative and ends at zero.  (Stated from the spec's
words; used only to state claims, never as the code model.) -/
def specBalanced : List Char → Nat → Bool
  | [], 0 => true
  | [], _ + 1 => false
  | c :: cs, depth =>
    if c = '[' then specBalanced cs (depth + 1)
    else if c = ']' then
      match depth with
      | 0 => false
      | d + 1 => specBalanced cs d
    else specBalanced cs depth

/-- The jump-pairing invariant claimed for compiler output: every `JZ` with
positive offset `d` has a `JNZ` with offset `-d` at distance `d`, and every
`JNZ` with negative offset `-d` has a `JZ` with offset `d` at distance `d`
back. -/
def Paired (l : List Instr) : Prop :=
  (∀ i ins, l.get? i = some ins → ins.opcode = Op.JZ → 0 < ins.off →
     ∃ p, l.get? (i + ins.off.toNat) = some p ∧ p.opcode = Op.JNZ ∧
       p.off = -ins.off) ∧
  (∀ j ins, l.get? j = some ins → ins.opcode = Op.JNZ → ins.off < 0 →
     ins.off.natAbs ≤ j ∧
     ∃ p, l.get? (j - ins.off.natAbs) = some p ∧ p.opcode = Op.JZ ∧
       p.off = -ins.off)

/-- The opcode/offset signature of one position; the pairing invariants only
depend on it, so `arg`-only updates (`fuse_set_add`) preserve them. -/
def sig (l : List Instr) (i : Nat) : Option (Op × Int) :=
  (l.get? i).map fun x => (x.opcode, x.off)

/-- Invariant of the open-loop stack: indices strictly decrease from the top
and each points at a `JZ` whose offset is still 0. -/
def JumpsOk (l : List Instr) (js : List Nat) : Prop :=
  js.Pairwise (fun a b => b < a) ∧
  ∀ s ∈ js, ∃ ins, l.get? s = some ins ∧ ins.opcode = Op.JZ ∧ ins.off = 0

/-- No closed `JZ`/`JNZ` pair crosses an open-loop boundary: a closed pair
strictly below an open `JZ` index stays strictly below it. -/
def NoCross (l : List Instr) (js : List Nat) : Prop :=
  ∀ s ∈ js, ∀ i ins, l.get? i = some ins → ins.opcode = Op.JZ →
    0 < ins.off → i < s → i + ins.off.toNat < s

/-- The accumulator only ever holds one of the six fusible opcodes. -/
def AccOk (st : CState) : Prop :=
  ∀ op, st.accumulating = some op → op ≠ Op.JZ ∧ op ≠ Op.JNZ

/-- The compiler-state invariant carried through the character loop. -/
def Inv (st : CState) : Prop :=
  Paired st.instrs ∧ JumpsOk st.instrs st.jumps ∧
    NoCross st.instrs st.jumps ∧ AccOk st

/-- Whether the accumulator holds a pending instruction. -/
def accBit (st : CState) : Nat :=
  if st.accumulating.isSome then 1 else 0

/-- Size potential of a compiler state: emitted instructions plus the pending
accumulator.  It grows by at most one per source character, which bounds every
intermediate instruction count by the source length and keeps the `i32`
offset arithmetic of `emitOp` exact for sources shorter than `2^31`. -/
def pot (st : CState) : Nat :=
  st.instrs.length + accBit st

/-! ## Claim theorems: compile-time behaviour at concrete inputs -/

/-- Claim C2, failing input.  The claim says no source and no option set makes
`compile` panic, but the `set_jump` closure evaluates `code[start - 1]` before
its `start > 0` guard and the eager `Option::or` chain runs it for every `]`,
so compiling the classic cell-clearing loop `[-]` under the default options
aborts. -/
theorem c2_compile_panics_on_loop_at_start :
    compile "[-]".data defaultOpts = CompileRes.panicked := rfl

/-- Claim C3, failing input.  `[]` is bracket-balanced, yet with
`loop_set_jump` enabled `compile` neither returns an instruction vector nor
the bracket error: it panics via the same `start - 1` underflow. -/
theorem c3_balanced_source_panics :
    specBalanced "[]".data 0 = true ∧
    compile "[]".data ⟨false, false, false, false, false, true⟩ =
      CompileRes.panicked :=
  ⟨rfl, rfl⟩

/-- Claim C7, failing input.  The `set_zero` scan counts `+1` per `Add`
instruction and `-1` per `Sub` instruction, ignoring the fused `arg` weights.
For `[--+]` under `fuse_adjacent` the body is `[Sub 2, Add 1]`, whose signed
sum is `-1 ≠ 0`, so the claim (and the comment above `set_zero`, which lists
`[--+]` as an example) requires the rewrite to `[Set 0]`; the code computes
`-1 + 1 = 0` and keeps the loop. -/
theorem c7_set_zero_ignores_arg_weights :
    compile "[--+]".data ⟨true, false, true, false, false, false⟩ =
      CompileRes.ok
        [⟨Op.JZ, 0, 3⟩, ⟨Op.Sub, 2, 0⟩, ⟨Op.Add, 1, 0⟩, ⟨Op.JNZ, 0, -3⟩] ∧
    compile "[--+]".data ⟨true, false, true, false, false, false⟩ ≠
      CompileRes.ok [⟨Op.Set, 0, 0⟩] := by
  refine ⟨rfl, ?_⟩
  decide

/-- Claim C8: under the default options (which enable `loop_copy_multiply`)
the loop of `++[->++<]` compiles to `CMul{arg 2, off 1}` followed by `Set 0`,
and running the program on a zeroed tape with empty stdin halts with
cell 0 = 0 and cell 1 = 4. -/
theorem c8_copy_multiply_example :
    compile "++[->++<]".data defaultOpts =
      CompileRes.ok [⟨Op.Add, 2, 0⟩, ⟨Op.CMul, 2, 1⟩, ⟨Op.Set, 0, 0⟩] ∧
    (runFuel [⟨Op.Add, 2, 0⟩, ⟨Op.CMul, 2, 1⟩, ⟨Op.Set, 0, 0⟩] 32
        (initConfig [])).map (fun c => (c.mem 0, c.mem 1)) =
      some (0, 4) :=
  ⟨rfl, rfl⟩

/-- Claim C1, failing input.  `set_jump` drops the `Set 0` that terminates the
inner loop: compiling `+[[-]].` with `loop_set_zero` and `loop_set_jump`
yields a program printing byte `0x01`, while the unoptimised program prints
byte `0x00`. -/
theorem c1_set_jump_changes_stdout :
    compile "+[[-]].".data ⟨false, false, true, false, false, true⟩ =
      CompileRes.ok [⟨Op.Add, 1, 0⟩, ⟨Op.JZ, 0, 0⟩, ⟨Op.PutCh, 1, 0⟩] ∧
    compile "+[[-]].".data ⟨false, false, false, false, false, false⟩ =
      CompileRes.ok
        [⟨Op.Add, 1, 0⟩, ⟨Op.JZ, 0, 4⟩, ⟨Op.JZ, 0, 2⟩, ⟨Op.Sub, 1, 0⟩,
         ⟨Op.JNZ, 0, -2⟩, ⟨Op.JNZ, 0, -4⟩, ⟨Op.PutCh, 1, 0⟩] ∧
    (runFuel [⟨Op.Add, 1, 0⟩, ⟨Op.JZ, 0, 0⟩, ⟨Op.PutCh, 1, 0⟩] 32
        (initConfig [])).map Config.stdout = some [1] ∧
    (runFuel
        [⟨Op.Add, 1, 0⟩, ⟨Op.JZ, 0, 4⟩, ⟨Op.JZ, 0, 2⟩, ⟨Op.Sub, 1, 0⟩,
         ⟨Op.JNZ, 0, -2⟩, ⟨Op.JNZ, 0, -4⟩, ⟨Op.PutCh, 1, 0⟩] 32
        (initConfig [])).map Config.stdout = some [0] ∧
    ([1] : List Nat) ≠ [0] := by
  refine ⟨rfl, rfl, rfl, rfl, ?_⟩
  decide

/-! ## Claim theorems: interpreter steps -/

/-- Claim C5, counterexample.  A `PutCh` of a cell holding 255 writes the two
UTF-8 bytes `0xC3 0xBF`, not the single raw byte `0xFF`: `run` prints
`memory[dp] as char`, which UTF-8-encodes code points at or above 128. -/
theorem c5_putch_high_byte_not_raw :
    stepOut [⟨Op.PutCh, 1, 0⟩] ⟨0, 0, fun _ => 255, [], []⟩ =
      some [195, 191] ∧
    some [(195 : Nat), 191] ≠ some [255] := by
  refine ⟨rfl, ?_⟩
  decide

/-- Claim C5, amended: executing `PutCh` with count `a` appends to stdout
exactly `a` copies of the UTF-8 encoding of the current cell value — the
single byte `v` when `v < 128` and the two bytes `192 + v / 64`,
`128 + v % 64` when `v ≥ 128` — leaving tape, pointers and stdin unchanged. -/
theorem c5_amended_putch_writes_utf8 (code : List Instr) (c : Config)
    (a : Nat) (o : Int)
    (h : code.get? c.ip = some ⟨Op.PutCh, a, o⟩) (hdp : c.dp < 30000) :
    ∃ c', step code c = StepRes.ok c' ∧
      c'.stdout =
        c.stdout ++ (List.replicate a (putBytes (c.mem c.dp))).flatten ∧
      c'.mem = c.mem ∧ c'.dp = c.dp ∧ c'.stdin = c.stdin ∧
      c'.ip = ipInc c.ip := by
  have h' : code[c.ip]? = some (⟨Op.PutCh, a, o⟩ : Instr) := by
    rw [← List.get?_eq_getElem?]
    exact h
  refine ⟨{ c with
              stdout :=
                c.stdout ++ (List.replicate a (putBytes (c.mem c.dp))).flatten,
              ip := ipInc c.ip },
    ?_, rfl, rfl, rfl, rfl, rfl⟩
  simp [step, h', hdp]

/-- Witness for the amended C5 theorem at a concrete input. -/
theorem c5_amended_witness :
    ∃ c', step [⟨Op.PutCh, 2, 0⟩] ⟨0, 0, fun _ => 200, [], [7]⟩ =
        StepRes.ok c' ∧
      c'.stdout = [7] ++
        (List.replicate 2 (putBytes ((fun _ => 200 : Nat → Nat) 0))).flatten ∧
      c'.mem = (fun _ => 200) ∧ c'.dp = 0 ∧ c'.stdin = [] ∧
      c'.ip = ipInc 0 :=
  c5_amended_putch_writes_utf8 [⟨Op.PutCh, 2, 0⟩] ⟨0, 0, fun _ => 200, [], [7]⟩
    2 0 rfl (by decide)

/-- Claim C6, counterexample.  `Right 1` executed at `dp = 29999` moves the
data pointer to 30000: the source uses `usize::saturating_add`, which clamps
at `usize::MAX`, not at the last tape index 29999. -/
theorem c6_right_exceeds_tape_end :
    stepDp [⟨Op.Right, 1, 0⟩] ⟨0, 29999, fun _ => 0, [], []⟩ = some 30000 ∧
    (30000 : Nat) ≠ min 29999 (29999 + 1) := by
  refine ⟨rfl, ?_⟩
  decide

/-- Claim C6, amended: `Right` with count `a` sets the data pointer to
`min(usize::MAX, dp + a)` — saturating only at `usize::MAX` — so it can leave
the tape; the out-of-range pointer only traps at the next cell access. -/
theorem c6_amended_right_saturates_at_usize_max (code : List Instr)
    (c : Config) (a : Nat) (o : Int)
    (h : code.get? c.ip = some ⟨Op.Right, a, o⟩) :
    ∃ c', step code c = StepRes.ok c' ∧
      c'.dp = min usizeMax (c.dp + a) ∧
      c'.mem = c.mem ∧ c'.stdin = c.stdin ∧ c'.stdout = c.stdout ∧
      c'.ip = ipInc c.ip := by
  have h' : code[c.ip]? = some (⟨Op.Right, a, o⟩ : Instr) := by
    rw [← List.get?_eq_getElem?]
    exact h
  refine ⟨{ c with dp := min usizeMax (c.dp + a), ip := ipInc c.ip },
    ?_, rfl, rfl, rfl, rfl, rfl⟩
  simp [step, h']

/-- Witness for the amended C6 theorem at a concrete input. -/
theorem c6_amended_witness :
    ∃ c', step [⟨Op.Right, 7, 0⟩] ⟨0, 29998, fun _ => 0, [], []⟩ =
        StepRes.ok c' ∧
      c'.dp = min usizeMax (29998 + 7) ∧
      c'.mem = (fun _ => 0) ∧ c'.stdin = [] ∧ c'.stdout = [] ∧
      c'.ip = ipInc 0 :=
  c6_amended_right_saturates_at_usize_max [⟨Op.Right, 7, 0⟩]
    ⟨0, 29998, fun _ => 0, [], []⟩ 7 0 rfl

/-- Claim C9: `GetCh` with count `a` attempts `a` reads, consuming
`min(a, |stdin|)` bytes of stdin; the cell keeps the last successfully read
byte and is untouched when every read fails. -/
theorem c9_getch_keeps_last_read (code : List Instr) (c : Config)
    (a : Nat) (o : Int)
    (h : code.get? c.ip = some ⟨Op.GetCh, a, o⟩) (hdp : c.dp < 30000) :
    ∃ c', step code c = StepRes.ok c' ∧
      c'.stdin = c.stdin.drop a ∧
      c'.ip = ipInc c.ip ∧ c'.dp = c.dp ∧ c'.stdout = c.stdout ∧
      (min a c.stdin.length = 0 → c'.mem = c.mem) ∧
      (∀ b, c.stdin.get? (min a c.stdin.length - 1) = some b →
        0 < min a c.stdin.length →
        c'.mem = memSet c.mem c.dp (b % 256)) := by
  have h' : code[c.ip]? = some (⟨Op.GetCh, a, o⟩ : Instr) := by
    rw [← List.get?_eq_getElem?]
    exact h
  cases hlast : (c.stdin.take a).getLast? with
  | none =>
    have htake : c.stdin.take a = [] := List.getLast?_eq_none_iff.mp hlast
    have hmin : min a c.stdin.length = 0 := by
      have := congrArg List.length htake
      simpa using this
    have hdropa : c.stdin.drop a = c.stdin := by
      rcases List.take_eq_nil_iff.mp htake with h0 | h0
      · simp [h0]
      · simp [h0]
    refine ⟨{ c with ip := ipInc c.ip }, ?_, by simpa using hdropa.symm, rfl,
      rfl, rfl, fun _ => rfl, ?_⟩
    · simp [step, h', hlast]
    · intro b _ hpos
      omega
  | some b =>
    have hne : c.stdin.take a ≠ [] := by
      intro h0
      rw [h0] at hlast
      simp at hlast
    have hpos : 0 < min a c.stdin.length := by
      have := List.length_pos.mpr hne
      simpa using this
    have hb : c.stdin.get? (min a c.stdin.length - 1) = some b := by
      have h1 : (c.stdin.take a).getLast? =
          (c.stdin.take a).get? ((c.stdin.take a).length - 1) := by
        rw [List.getLast?_eq_getElem?]
        simp
      have h2 : (c.stdin.take a).length = min a c.stdin.length := by simp
      have h3 : min a c.stdin.length - 1 < a := by omega
      rw [h1, h2] at hlast
      rw [← hlast]
      simp [List.getElem?_take_of_lt h3]
    refine ⟨{ c with
                mem := memSet c.mem c.dp (b % 256),
                stdin := c.stdin.drop a,
                ip := ipInc c.ip },
      ?_, rfl, rfl, rfl, rfl, ?_, ?_⟩
    · simp [step, h', hlast, hdp]
    · intro h0
      omega
    · intro b' hb' _
      have : b' = b := by
        rw [hb] at hb'
        exact (Option.some.inj hb').symm
      rw [this]

/-- Witness for the C9 theorem at a concrete input: `GetCh 3` on stdin
`[65, 66, 67, 68]` keeps byte 67 and leaves `[68]` unread. -/
theorem c9_witness :
    ∃ c', step [⟨Op.GetCh, 3, 0⟩] ⟨0, 0, fun _ => 0, [65, 66, 67, 68], []⟩ =
        StepRes.ok c' ∧
      c'.stdin = ([65, 66, 67, 68] : List Nat).drop 3 ∧
      c'.ip = ipInc 0 ∧ c'.dp = 0 ∧ c'.stdout = [] ∧
      (min 3 ([65, 66, 67, 68] : List Nat).length = 0 →
        c'.mem = (fun _ => 0)) ∧
      (∀ b, ([65, 66, 67, 68] : List Nat).get?
          (min 3 ([65, 66, 67, 68] : List Nat).length - 1) = some b →
        0 < min 3 ([65, 66, 67, 68] : List Nat).length →
        c'.mem = memSet (fun _ => 0) 0 (b % 256)) :=
  c9_getch_keeps_last_read [⟨Op.GetCh, 3, 0⟩]
    ⟨0, 0, fun _ => 0, [65, 66, 67, 68], []⟩ 3 0 rfl (by decide)

/-! ## Claim C10: determinism of the interpreter -/

/-- The step function yields at most one successor. -/
theorem stepsTo_unique {code : List Instr} {a u v : Config}
    (hu : StepsTo code a u) (hv : StepsTo code a v) : u = v := by
  have h := hu.symm.trans hv
  exact StepRes.ok.inj h

/-- A state with no successor reaches only itself. -/
theorem reaches_self_of_noStep {code : List Instr} {s t : Config}
    (e : NoStep code s) (h : Reaches code s t) : s = t := by
  rcases Relation.ReflTransGen.cases_head h with h0 | ⟨u, hsu, _⟩
  · exact h0
  · exact absurd hsu (e u)

/-- Claim C10: `run` is deterministic.  Two complete executions of the same
instruction vector from the same state (hence the same stdin) end in the same
final state — in particular with identical stdout, tape and data pointer. -/
theorem c10_run_deterministic (code : List Instr) {s t₁ t₂ : Config}
    (h1 : Reaches code s t₁) (e1 : NoStep code t₁) (e2 : NoStep code t₂) :
    Reaches code s t₂ → t₁ = t₂ := by
  induction h1 using Relation.ReflTransGen.head_induction_on with
  | refl =>
    intro h2
    exact reaches_self_of_noStep e1 h2
  | head hac hcb ih =>
    intro h2
    rcases Relation.ReflTransGen.cases_head h2 with h0 | ⟨u, hsu, hu⟩
    · subst h0
      exact absurd hac (e2 _)
    · have := stepsTo_unique hsu hac
      subst this
      exact ih hu

/-- Witness for the C10 theorem: the empty program halts immediately, and the
theorem applied to its (unique) execution gives reflexivity. -/
theorem c10_witness : initConfig [] = initConfig [] :=
  c10_run_deterministic []
    (Relation.ReflTransGen.refl)
    (fun u h => by simp [StepsTo, step] at h)
    (fun u h => by simp [StepsTo, step] at h)
    (Relation.ReflTransGen.refl)

/-! ## Claim C4: the jump-pairing invariant -/

/-- A successful lookup is within bounds. -/
theorem get?_some_lt {l : List Instr} {i : Nat} {x : Instr}
    (h : l.get? i = some x) : i < l.length := by
  rw [List.get?_eq_getElem?] at h
  obtain ⟨h1, _⟩ := List.getElem?_eq_some_iff.mp h
  exact h1

/-- Unfolding of a signature lookup. -/
theorem sig_some_iff {l : List Instr} {i : Nat} {q : Op × Int} :
    sig l i = some q ↔
      ∃ x, l.get? i = some x ∧ x.opcode = q.1 ∧ x.off = q.2 := by
  unfold sig
  rw [Option.map_eq_some']
  constructor
  · rintro ⟨x, hx, hq⟩
    exact ⟨x, hx, by rw [← hq], by rw [← hq]⟩
  · rintro ⟨x, hx, h1, h2⟩
    refine ⟨x, hx, ?_⟩
    rw [h1, h2]

/-- Invariant `Paired` only depends on the opcode/offset signature. -/
theorem paired_of_sig {l l' : List Instr}
    (H : ∀ i, sig l' i = sig l i) (hp : Paired l) : Paired l' := by
  constructor
  · intro i ins h hop hoff
    have hs : sig l' i = some (ins.opcode, ins.off) := by
      unfold sig
      rw [h]
      rfl
    rw [H i] at hs
    obtain ⟨x, hx, hxo, hxf⟩ := sig_some_iff.mp hs
    have hxo' : x.opcode = ins.opcode := hxo
    have hxf' : x.off = ins.off := hxf
    obtain ⟨p, hp1, hp2, hp3⟩ :=
      hp.1 i x hx (by rw [hxo']; exact hop) (by rw [hxf']; exact hoff)
    have hs2 : sig l (i + x.off.toNat) = some (p.opcode, p.off) := by
      unfold sig
      rw [hp1]
      rfl
    rw [← H] at hs2
    obtain ⟨p', hq1, hq2, hq3⟩ := sig_some_iff.mp hs2
    have hq2' : p'.opcode = p.opcode := hq2
    have hq3' : p'.off = p.off := hq3
    refine ⟨p', ?_, by rw [hq2']; exact hp2, ?_⟩
    · rw [← hxf']
      exact hq1
    · rw [hq3', hp3, hxf']
  · intro j ins h hop hoff
    have hs : sig l' j = some (ins.opcode, ins.off) := by
      unfold sig
      rw [h]
      rfl
    rw [H j] at hs
    obtain ⟨x, hx, hxo, hxf⟩ := sig_some_iff.mp hs
    have hxo' : x.opcode = ins.opcode := hxo
    have hxf' : x.off = ins.off := hxf
    obtain ⟨hle, p, hp1, hp2, hp3⟩ :=
      hp.2 j x hx (by rw [hxo']; exact hop) (by rw [hxf']; exact hoff)
    have hs2 : sig l (j - x.off.natAbs) = some (p.opcode, p.off) := by
      unfold sig
      rw [hp1]
      rfl
    rw [← H] at hs2
    obtain ⟨p', hq1, hq2, hq3⟩ := sig_some_iff.mp hs2
    have hq2' : p'.opcode = p.opcode := hq2
    have hq3' : p'.off = p.off := hq3
    refine ⟨by rw [← hxf']; exact hle, p', ?_,
      by rw [hq2']; exact hp2, ?_⟩
    · rw [← hxf']
      exact hq1
    · rw [hq3', hp3, hxf']

/-- Invariant `JumpsOk` only depends on the opcode/offset signature. -/
theorem jumpsOk_of_sig {l l' : List Instr} {js : List Nat}
    (H : ∀ i, sig l' i = sig l i) (hj : JumpsOk l js) : JumpsOk l' js := by
  refine ⟨hj.1, fun s hs => ?_⟩
  obtain ⟨ins, h1, h2, h3⟩ := hj.2 s hs
  have hs2 : sig l' s = some (Op.JZ, 0) := by
    rw [H, ← h2, ← h3]
    unfold sig
    rw [h1]
    rfl
  obtain ⟨x, hx, hxo, hxf⟩ := sig_some_iff.mp hs2
  exact ⟨x, hx, hxo, hxf⟩

/-- Invariant `NoCross` only depends on the opcode/offset signature. -/
theorem noCross_of_sig {l l' : List Instr} {js : List Nat}
    (H : ∀ i, sig l' i = sig l i) (hn : NoCross l js) : NoCross l' js := by
  intro s hs i ins h hop hoff hlt
  have hs2 : sig l i = some (ins.opcode, ins.off) := by
    rw [← H]
    unfold sig
    rw [h]
    rfl
  obtain ⟨x, hx, hxo, hxf⟩ := sig_some_iff.mp hs2
  have hxo' : x.opcode = ins.opcode := hxo
  have hxf' : x.off = ins.off := hxf
  have := hn s hs i x hx (by rw [hxo']; exact hop)
    (by rw [hxf']; exact hoff) hlt
  rw [hxf'] at this
  exact this

/-- Update `modArg` preserves the signature at every index. -/
theorem sig_modArg (l : List Instr) (k a i : Nat) :
    sig (modArg l k a) i = sig l i := by
  unfold modArg
  cases hk : l.get? k with
  | none => rfl
  | some ins =>
    have hlt : k < l.length := get?_some_lt hk
    unfold sig
    rcases eq_or_ne i k with rfl | hne
    · rw [List.get?_eq_getElem?, List.get?_eq_getElem?,
        List.getElem?_set_self hlt]
      rw [List.get?_eq_getElem?] at hk
      rw [hk]
      rfl
    · rw [List.get?_eq_getElem?, List.get?_eq_getElem?,
        List.getElem?_set_ne (Ne.symm hne)]

/-- Lookup in a one-element extension, inside the original part. -/
theorem get?_append_lt {l r : List Instr} {i : Nat} (h : i < l.length) :
    (l ++ r).get? i = l.get? i := by
  rw [List.get?_eq_getElem?, List.get?_eq_getElem?,
    List.getElem?_append_left h]

/-- Lookup of the appended element. -/
theorem get?_concat_self (l : List Instr) (x : Instr) :
    (l ++ [x]).get? l.length = some x := by
  rw [List.get?_eq_getElem?]
  exact List.getElem?_concat_length l x

/-- Case split for a successful lookup in a one-element extension. -/
theorem get?_concat_cases {l : List Instr} {x : Instr} {i : Nat} {y : Instr}
    (h : (l ++ [x]).get? i = some y) :
    (i < l.length ∧ l.get? i = some y) ∨ (i = l.length ∧ y = x) := by
  rcases Nat.lt_or_ge i l.length with hlt | hge
  · left
    rw [get?_append_lt hlt] at h
    exact ⟨hlt, h⟩
  · right
    have hub : i < l.length + 1 := by
      have := get?_some_lt h
      simpa using this
    have : i = l.length := by omega
    subst this
    rw [get?_concat_self] at h
    exact ⟨rfl, (Option.some.inj h).symm⟩

/-- Appending an instruction that is not a positively-offset `JZ` and not a
`JNZ` preserves `Paired`. -/
theorem paired_append_safe {l : List Instr} {x : Instr} (hp : Paired l)
    (hjz : x.opcode = Op.JZ → ¬ 0 < x.off) (hjnz : x.opcode ≠ Op.JNZ) :
    Paired (l ++ [x]) := by
  constructor
  · intro i ins h hop hoff
    rcases get?_concat_cases h with ⟨hlt, hl⟩ | ⟨heq, rfl⟩
    · obtain ⟨p, hp1, hp2, hp3⟩ := hp.1 i ins hl hop hoff
      have hb : i + ins.off.toNat < l.length := get?_some_lt hp1
      refine ⟨p, ?_, hp2, hp3⟩
      rw [get?_append_lt hb]
      exact hp1
    · exact absurd hoff (hjz hop)
  · intro j ins h hop hoff
    rcases get?_concat_cases h with ⟨hlt, hl⟩ | ⟨heq, rfl⟩
    · obtain ⟨hle, p, hp1, hp2, hp3⟩ := hp.2 j ins hl hop hoff
      have hb : j - ins.off.natAbs < l.length := get?_some_lt hp1
      refine ⟨hle, p, ?_, hp2, hp3⟩
      rw [get?_append_lt hb]
      exact hp1
    · exact absurd hop hjnz

/-- Appending any instruction preserves the stack invariant. -/
theorem jumpsOk_append {l : List Instr} {js : List Nat} {x : Instr}
    (h : JumpsOk l js) : JumpsOk (l ++ [x]) js := by
  refine ⟨h.1, fun s hs => ?_⟩
  obtain ⟨ins, h1, h2, h3⟩ := h.2 s hs
  refine ⟨ins, ?_, h2, h3⟩
  rw [get?_append_lt (get?_some_lt h1)]
  exact h1

/-- Appending an instruction that is not a positively-offset `JZ` preserves
`NoCross`. -/
theorem noCross_append {l : List Instr} {js : List Nat} {x : Instr}
    (h : NoCross l js) (hjz : x.opcode = Op.JZ → ¬ 0 < x.off) :
    NoCross (l ++ [x]) js := by
  intro s hs i ins hi hop hoff hlt
  rcases get?_concat_cases hi with ⟨hl, hl2⟩ | ⟨heq, rfl⟩
  · exact h s hs i ins hl2 hop hoff hlt
  · exact absurd hoff (hjz hop)

/-- Opening a loop: append `JZ 0` and push the current length. -/
theorem inv_push_jz {l : List Instr} {js : List Nat}
    (hp : Paired l) (hj : JumpsOk l js) (hn : NoCross l js) :
    Paired (l ++ [⟨Op.JZ, 0, 0⟩]) ∧
    JumpsOk (l ++ [⟨Op.JZ, 0, 0⟩]) (l.length :: js) ∧
    NoCross (l ++ [⟨Op.JZ, 0, 0⟩]) (l.length :: js) := by
  refine ⟨paired_append_safe hp (fun _ => by decide) (by decide), ⟨?_, ?_⟩, ?_⟩
  · refine List.pairwise_cons.mpr ⟨fun s hs => ?_, hj.1⟩
    obtain ⟨ins, h1, _, _⟩ := hj.2 s hs
    exact get?_some_lt h1
  · intro s hs
    rcases List.mem_cons.mp hs with rfl | hs'
    · exact ⟨⟨Op.JZ, 0, 0⟩, get?_concat_self l _, rfl, rfl⟩
    · obtain ⟨ins, h1, h2, h3⟩ := hj.2 s hs'
      refine ⟨ins, ?_, h2, h3⟩
      rw [get?_append_lt (get?_some_lt h1)]
      exact h1
  · intro s hs i ins hi hop hoff hlt
    rcases get?_concat_cases hi with ⟨hl, hl2⟩ | ⟨heq, rfl⟩
    · rcases List.mem_cons.mp hs with rfl | hs'
      · obtain ⟨p, hp1, _, _⟩ := hp.1 i ins hl2 hop hoff
        exact get?_some_lt hp1
      · exact hn s hs' i ins hl2 hop hoff hlt
    · exact absurd hoff (by decide)

/-- Closing a loop without a rewrite: the `JNZ` is appended with offset
`start - len` and the opener's offset is set to the negation; the new pair is
correctly matched and everything else is untouched. -/
theorem inv_close_keep {l : List Instr} {start : Nat} {rest : List Nat}
    (hp : Paired l) (hj : JumpsOk l (start :: rest))
    (hn : NoCross l (start :: rest)) :
    Paired (modOff (l ++ [⟨Op.JNZ, 0, (start : Int) - (l.length : Int)⟩])
        start (-((start : Int) - (l.length : Int)))) ∧
    JumpsOk (modOff (l ++ [⟨Op.JNZ, 0, (start : Int) - (l.length : Int)⟩])
        start (-((start : Int) - (l.length : Int)))) rest ∧
    NoCross (modOff (l ++ [⟨Op.JNZ, 0, (start : Int) - (l.length : Int)⟩])
        start (-((start : Int) - (l.length : Int)))) rest := by
  obtain ⟨jz, hjz1, hjz2, hjz3⟩ := hj.2 start (List.mem_cons_self start rest)
  have hstart : start < l.length := get?_some_lt hjz1
  have hrlt : ∀ s ∈ rest, s < start := (List.pairwise_cons.mp hj.1).1
  have hrpw : rest.Pairwise (fun a b => b < a) := (List.pairwise_cons.mp hj.1).2
  set L := l.length with hL
  set D : Int := -((start : Int) - (L : Int)) with hD
  have hD0 : 0 < D := by omega
  have hDt : D.toNat = L - start := by omega
  have hget : (l ++ [(⟨Op.JNZ, 0, (start : Int) - (L : Int)⟩ : Instr)]).get?
      start = some jz := by
    rw [get?_append_lt hstart]
    exact hjz1
  have hform : modOff (l ++ [⟨Op.JNZ, 0, (start : Int) - (L : Int)⟩]) start D =
      l.set start { jz with off := D } ++
        [⟨Op.JNZ, 0, (start : Int) - (L : Int)⟩] := by
    unfold modOff
    rw [hget]
    exact List.set_append_left _ _ hstart
  rw [hform]
  set N := l.set start { jz with off := D } ++
    [⟨Op.JNZ, 0, (start : Int) - (L : Int)⟩] with hN
  have glen : (l.set start { jz with off := D }).length = L := by
    rw [List.length_set]
  have g1 : N.get? start = some { jz with off := D } := by
    rw [hN, get?_append_lt (by rw [glen]; exact hstart),
      List.get?_eq_getElem?]
    exact List.getElem?_set_self hstart
  have g2 : N.get? L = some ⟨Op.JNZ, 0, (start : Int) - (L : Int)⟩ := by
    have h2 := get?_concat_self (l.set start { jz with off := D })
      ⟨Op.JNZ, 0, (start : Int) - (L : Int)⟩
    rw [glen] at h2
    exact h2
  have g3 : ∀ i, i < L → i ≠ start → N.get? i = l.get? i := by
    intro i hiL hine
    rw [hN, get?_append_lt (by rw [glen]; exact hiL),
      List.get?_eq_getElem?, List.get?_eq_getElem?]
    exact List.getElem?_set_ne (Ne.symm hine)
  have gcases : ∀ {i : Nat} {y : Instr}, N.get? i = some y →
      (i < L ∧ i ≠ start ∧ l.get? i = some y) ∨
      (i = start ∧ y = { jz with off := D }) ∨
      (i = L ∧ y = ⟨Op.JNZ, 0, (start : Int) - (L : Int)⟩) := by
    intro i y hy
    rw [hN] at hy
    rcases get?_concat_cases hy with ⟨hiL, hset⟩ | ⟨heq, rfl⟩
    · rw [glen] at hiL
      rcases eq_or_ne i start with rfl | hne
      · right
        left
        rw [List.get?_eq_getElem?, List.getElem?_set_self hstart] at hset
        exact ⟨rfl, (Option.some.inj hset).symm⟩
      · left
        refine ⟨hiL, hne, ?_⟩
        rw [List.get?_eq_getElem?, List.getElem?_set_ne (Ne.symm hne)]
          at hset
        rw [List.get?_eq_getElem?]
        exact hset
    · right
      right
      rw [glen] at heq
      exact ⟨heq, rfl⟩
  refine ⟨⟨?_, ?_⟩, ⟨hrpw, ?_⟩, ?_⟩
  · intro i ins hi hop hoff
    rcases gcases hi with ⟨hiL, hne, hl⟩ | ⟨heq, rfl⟩ | ⟨heq, rfl⟩
    · obtain ⟨p, hp1, hp2, hp3⟩ := hp.1 i ins hl hop hoff
      have hpdL : i + ins.off.toNat < L := get?_some_lt hp1
      have hpdne : i + ins.off.toNat ≠ start := by
        intro e
        rw [e, hjz1] at hp1
        have hpe := Option.some.inj hp1
        rw [← hpe] at hp2
        rw [hjz2] at hp2
        simp at hp2
      refine ⟨p, ?_, hp2, hp3⟩
      rw [g3 _ hpdL hpdne]
      exact hp1
    · subst i
      refine ⟨⟨Op.JNZ, 0, (start : Int) - (L : Int)⟩, ?_, rfl, ?_⟩
      · have hidx : start + ({ jz with off := D } : Instr).off.toNat = L := by
          show start + D.toNat = L
          omega
        rw [hidx]
        exact g2
      · show (start : Int) - (L : Int) = -({ jz with off := D } : Instr).off
        show (start : Int) - (L : Int) = -D
        omega
    · subst i
      rw [show (⟨Op.JNZ, 0, (start : Int) - (L : Int)⟩ : Instr).opcode =
        Op.JNZ from rfl] at hop
      simp at hop
  · intro j ins hjj hop hoff
    rcases gcases hjj with ⟨hjL, hne, hl⟩ | ⟨heq, rfl⟩ | ⟨heq, rfl⟩
    · obtain ⟨hle, p, hp1, hp2, hp3⟩ := hp.2 j ins hl hop hoff
      have hjmL : j - ins.off.natAbs < L := get?_some_lt hp1
      have hjmne : j - ins.off.natAbs ≠ start := by
        intro e
        rw [e, hjz1] at hp1
        have hpe := Option.some.inj hp1
        rw [← hpe] at hp3
        rw [hjz3] at hp3
        omega
      refine ⟨hle, p, ?_, hp2, hp3⟩
      rw [g3 _ hjmL hjmne]
      exact hp1
    · subst j
      have : jz.opcode = Op.JNZ := hop
      rw [hjz2] at this
      simp at this
    · subst j
      have hoffv : (⟨Op.JNZ, 0, (start : Int) - (L : Int)⟩ : Instr).off =
        (start : Int) - (L : Int) := rfl
      refine ⟨?_, { jz with off := D }, ?_, hjz2, ?_⟩
      · show ((start : Int) - (L : Int)).natAbs ≤ L
        omega
      · have hidx : L - ((⟨Op.JNZ, 0, (start : Int) - (L : Int)⟩ :
            Instr).off).natAbs = start := by
          show L - ((start : Int) - (L : Int)).natAbs = start
          omega
        rw [hidx]
        exact g1
      · show D = -((start : Int) - (L : Int))
        omega
  · intro s hs
    have hslt : s < start := hrlt s hs
    obtain ⟨ins, h1, h2, h3⟩ := hj.2 s (List.mem_cons_of_mem _ hs)
    refine ⟨ins, ?_, h2, h3⟩
    rw [g3 s (lt_trans hslt hstart) (Nat.ne_of_lt hslt)]
    exact h1
  · intro s hs i ins hi hop hoff hlt
    have hslt : s < start := hrlt s hs
    rcases gcases hi with ⟨hiL, hne, hl⟩ | ⟨heq, rfl⟩ | ⟨heq, rfl⟩
    · exact hn s (List.mem_cons_of_mem _ hs) i ins hl hop hoff hlt
    · omega
    · omega

/-- Closing a loop with a rewrite whose replacement contains no jump
instructions: everything strictly below `start` is kept and self-contained. -/
theorem inv_close_rewrite {l : List Instr} {start : Nat} {rest : List Nat}
    {r : List Instr}
    (hp : Paired l) (hj : JumpsOk l (start :: rest))
    (hn : NoCross l (start :: rest))
    (hr : ∀ x ∈ r, x.opcode ≠ Op.JZ ∧ x.opcode ≠ Op.JNZ) :
    Paired (l.take start ++ r) ∧ JumpsOk (l.take start ++ r) rest ∧
      NoCross (l.take start ++ r) rest := by
  obtain ⟨jz, hjz1, hjz2, hjz3⟩ := hj.2 start (List.mem_cons_self start rest)
  have hstart : start < l.length := get?_some_lt hjz1
  have hrlt : ∀ s ∈ rest, s < start := (List.pairwise_cons.mp hj.1).1
  have hrpw : rest.Pairwise (fun a b => b < a) := (List.pairwise_cons.mp hj.1).2
  have hlen : (l.take start).length = start := by
    rw [List.length_take]
    omega
  have ga : ∀ i, i < start → (l.take start ++ r).get? i = l.get? i := by
    intro i hi
    rw [get?_append_lt (by rw [hlen]; exact hi),
      List.get?_eq_getElem?, List.get?_eq_getElem?]
    exact List.getElem?_take_of_lt hi
  have gc : ∀ {i : Nat} {y : Instr}, (l.take start ++ r).get? i = some y →
      (i < start ∧ l.get? i = some y) ∨ y ∈ r := by
    intro i y hy
    rcases Nat.lt_or_ge i start with hi | hi
    · left
      rw [ga i hi] at hy
      exact ⟨hi, hy⟩
    · right
      rw [List.get?_eq_getElem?,
        List.getElem?_append_right (by rw [hlen]; exact hi)] at hy
      exact List.getElem?_mem hy
  refine ⟨⟨?_, ?_⟩, ⟨hrpw, ?_⟩, ?_⟩
  · intro i ins hi hop hoff
    rcases gc hi with ⟨hi1, hl⟩ | hmem
    · obtain ⟨p, hp1, hp2, hp3⟩ := hp.1 i ins hl hop hoff
      have hpd : i + ins.off.toNat < start :=
        hn start (List.mem_cons_self _ _) i ins hl hop hoff hi1
      refine ⟨p, ?_, hp2, hp3⟩
      rw [ga _ hpd]
      exact hp1
    · exact absurd hop (hr _ hmem).1
  · intro j ins hjj hop hoff
    rcases gc hjj with ⟨hj1, hl⟩ | hmem
    · obtain ⟨hle, p, hp1, hp2, hp3⟩ := hp.2 j ins hl hop hoff
      refine ⟨hle, p, ?_, hp2, hp3⟩
      rw [ga _ (lt_of_le_of_lt (Nat.sub_le _ _) hj1)]
      exact hp1
    · exact absurd hop (hr _ hmem).2
  · intro s hs
    have hslt : s < start := hrlt s hs
    obtain ⟨ins, h1, h2, h3⟩ := hj.2 s (List.mem_cons_of_mem _ hs)
    refine ⟨ins, ?_, h2, h3⟩
    rw [ga s hslt]
    exact h1
  · intro s hs i ins hi hop hoff hlt
    have hslt : s < start := hrlt s hs
    rcases gc hi with ⟨hi1, hl⟩ | hmem
    · exact hn s (List.mem_cons_of_mem _ hs) i ins hl hop hoff hlt
    · exact absurd hop (hr _ hmem).1

/-- Truncating at the opener index commutes with the closing updates. -/
theorem take_modOff_concat {l : List Instr} {x : Instr} {start : Nat}
    {v : Int} (h : start < l.length) :
    (modOff (l ++ [x]) start v).take start = l.take start := by
  unfold modOff
  cases hk : (l ++ [x]).get? start with
  | none => exact List.take_append_of_le_length (le_of_lt h)
  | some ins =>
    apply List.ext_getElem?
    intro n
    rcases Nat.lt_or_ge n start with hlt | hge
    · rw [List.getElem?_take_of_lt hlt, List.getElem?_take_of_lt hlt,
        List.getElem?_set_ne (by omega : start ≠ n)]
      exact List.getElem?_append_left (by omega)
    · rw [List.getElem?_take_eq_none hge, List.getElem?_take_eq_none hge]

/-- The `set_zero` replacement never contains a jump. -/
theorem setZero_nojump {code : List Instr} {start : Nat} {opts : Options}
    {r : List Instr} (h : setZero code start opts = some r) :
    ∀ x ∈ r, x.opcode ≠ Op.JZ ∧ x.opcode ≠ Op.JNZ := by
  unfold setZero at h
  split at h
  · split at h
    · split at h
      · intro x hx
        rw [← Option.some.inj h] at hx
        rcases List.mem_singleton.mp hx with rfl
        exact ⟨by decide, by decide⟩
      · simp at h
    · simp at h
  · simp at h

/-- The `copy_multiply` replacement never contains a jump. -/
theorem copyMultiply_nojump {code : List Instr} {start : Nat} {opts : Options}
    {r : List Instr} (h : copyMultiply code start opts = some r) :
    ∀ x ∈ r, x.opcode ≠ Op.JZ ∧ x.opcode ≠ Op.JNZ := by
  unfold copyMultiply at h
  split at h
  · split at h
    · simp at h
    · split at h
      · split at h
        · simp at h
        · split at h
          · simp at h
          · intro x hx
            rw [← Option.some.inj h] at hx
            rcases List.mem_append.mp hx with hx1 | hx1
            · obtain ⟨p, _, hpx⟩ := List.mem_map.mp hx1
              rw [← hpx]
              refine ⟨?_, ?_⟩ <;> split <;> (intro hc; simp at hc)
            · rcases List.mem_singleton.mp hx1 with rfl
              exact ⟨by decide, by decide⟩
      · simp at h
  · simp at h

/-- The `seek_lr` replacement never contains a jump. -/
theorem seekLr_nojump {code : List Instr} {start : Nat} {opts : Options}
    {r : List Instr} (h : seekLr code start opts = some r) :
    ∀ x ∈ r, x.opcode ≠ Op.JZ ∧ x.opcode ≠ Op.JNZ := by
  unfold seekLr at h
  split at h
  · split at h
    · split at h
      · split at h
        · intro x hx
          rw [← Option.some.inj h] at hx
          rcases List.mem_singleton.mp hx with rfl
          exact ⟨by decide, by decide⟩
        · simp at h
      · split at h
        · intro x hx
          rw [← Option.some.inj h] at hx
          rcases List.mem_singleton.mp hx with rfl
          exact ⟨by decide, by decide⟩
        · simp at h
      · simp at h
    · simp at h
  · simp at h

/-- With `loop_set_jump` off, a successful rewrite never contains a jump. -/
theorem optimise_ok_some_nojump {code : List Instr} {start : Nat}
    {opts : Options} {r : List Instr} (hsj : opts.loop_set_jump = false)
    (h : optimise_loop code start opts = Except.ok (some r)) :
    ∀ x ∈ r, x.opcode ≠ Op.JZ ∧ x.opcode ≠ Op.JNZ := by
  unfold optimise_loop at h
  have hsj2 : setJump code start opts = Except.ok none := by
    unfold setJump
    rw [hsj]
    simp
  rw [hsj2] at h
  have h2 : ((setZero code start opts).orElse fun _ =>
      (copyMultiply code start opts).orElse fun _ =>
        (seekLr code start opts).orElse fun _ => none) = some r :=
    Except.ok.inj h
  cases hz : setZero code start opts with
  | some r1 =>
    rw [hz] at h2
    simp only [Option.orElse] at h2
    rw [← Option.some.inj h2]
    exact setZero_nojump hz
  | none =>
    rw [hz] at h2
    simp only [Option.orElse] at h2
    cases hc : copyMultiply code start opts with
    | some r2 =>
      rw [hc] at h2
      simp only [Option.orElse] at h2
      rw [← Option.some.inj h2]
      exact copyMultiply_nojump hc
    | none =>
      rw [hc] at h2
      simp only [Option.orElse] at h2
      cases hl : seekLr code start opts with
      | some r3 =>
        rw [hl] at h2
        simp only [Option.orElse] at h2
        rw [← Option.some.inj h2]
        exact seekLr_nojump hl
      | none =>
        rw [hl] at h2
        simp only [Option.orElse] at h2
        simp at h2

/-- Cast `n as i32` is exact below `2^31`. -/
theorem toI32_small {n : Nat} (h : n < 2 ^ 31) : toI32 n = (n : Int) := by
  unfold toI32
  have hm : ((n : Int)) % 2 ^ 32 = (n : Int) := by omega
  rw [hm, if_pos (by omega)]

/-- Wrapped `i32` arithmetic is exact inside the representable range. -/
theorem wrapI32_small {z : Int} (h1 : -(2 ^ 31) ≤ z) (h2 : z < 2 ^ 31) :
    wrapI32 z = z := by
  unfold wrapI32
  rcases le_or_lt 0 z with h0 | h0
  · have hm : z % 2 ^ 32 = z := by omega
    rw [hm, if_pos h2]
  · have hm : z % 2 ^ 32 = z + 2 ^ 32 := by omega
    rw [hm, if_neg (by omega)]
    omega

/-- Update `modArg` preserves the length. -/
theorem length_modArg (l : List Instr) (k a : Nat) :
    (modArg l k a).length = l.length := by
  unfold modArg
  cases l.get? k <;> simp

/-- Update `modOff` preserves the length. -/
theorem length_modOff (l : List Instr) (k : Nat) (v : Int) :
    (modOff l k v).length = l.length := by
  unfold modOff
  cases l.get? k <;> simp

/-- The accumulator flush adds at most one instruction. -/
theorem flushInstr_len (opts : Options) (l : List Instr) (accOp : Op)
    (n : Nat) : (flushInstr opts l accOp n).length ≤ l.length + 1 := by
  unfold flushInstr
  split
  · split
    · rw [length_modArg]
      omega
    · rw [length_modArg]
      omega
    · simp
  · simp

/-- The instruction count of a state is bounded by its potential. -/
theorem len_le_pot (st : CState) : st.instrs.length ≤ pot st :=
  Nat.le_add_right _ _

/-- The flush stage does not increase the potential. -/
theorem pot_flushState (opts : Options) (st : CState) (op : Op) :
    pot (flushState opts st op) ≤ pot st := by
  unfold flushState
  split
  · rename_i accOp hacc
    unfold flushStateSome
    split
    · have hfl := flushInstr_len opts st.instrs accOp st.accumulated
      unfold pot accBit
      simp [hacc]
      omega
    · exact le_refl _
  · exact le_refl _

/-- The `set_zero` replacement is the single `Set 0`. -/
theorem setZero_result {code : List Instr} {start : Nat} {opts : Options}
    {r : List Instr} (h : setZero code start opts = some r) :
    r = [⟨Op.Set, 0, 0⟩] := by
  unfold setZero at h
  split at h
  · split at h
    · split at h
      · exact (Option.some.inj h).symm
      · simp at h
    · simp at h
  · simp at h

/-- The `seek_lr` replacement is a single instruction. -/
theorem seekLr_len {code : List Instr} {start : Nat} {opts : Options}
    {r : List Instr} (h : seekLr code start opts = some r) : r.length = 1 := by
  unfold seekLr at h
  split at h
  · split at h
    · split at h
      · split at h
        · rw [← Option.some.inj h]
          rfl
        · simp at h
      · split at h
        · rw [← Option.some.inj h]
          rfl
        · simp at h
      · simp at h
    · simp at h
  · simp at h

/-- The `copy_multiply` body walk records at most one pair per body
instruction. -/
theorem cmWalk_len : ∀ (body : List Instr) (fstDel off : Int)
    (deltas : List (Int × Int)) (res : Int × Int × List (Int × Int)),
    cmWalk body fstDel off deltas = some res →
    res.2.2.length ≤ deltas.length + body.length := by
  intro body
  induction body with
  | nil =>
    intro f o d res h
    rw [← Option.some.inj h]
    simp
  | cons x xs ih =>
    intro f o d res h
    have hcons : (x :: xs).length = xs.length + 1 := rfl
    unfold cmWalk at h
    split at h
    · have := ih _ _ _ _ h
      omega
    · split at h
      · have := ih _ _ _ _ h
        omega
      · simp at h
    · split at h
      · have := ih _ _ _ _ h
        have hd : (d ++ [((x.arg : Int), o)]).length = d.length + 1 := by simp
        omega
      · have := ih _ _ _ _ h
        omega
    · split at h
      · have := ih _ _ _ _ h
        have hd : (d ++ [(-(x.arg : Int), o)]).length = d.length + 1 := by simp
        omega
      · have := ih _ _ _ _ h
        omega
    · simp at h

/-- The `copy_multiply` replacement is shorter than the loop it replaces. -/
theorem copyMultiply_len {code : List Instr} {start : Nat} {opts : Options}
    {r : List Instr} (h : copyMultiply code start opts = some r) :
    start + r.length + 1 ≤ code.length := by
  unfold copyMultiply at h
  split at h
  · split at h
    · simp at h
    · rename_i hguard
      split at h
      · rename_i fstDel off deltas hwalk
        split at h
        · simp at h
        · split at h
          · simp at h
          · have hw : deltas.length ≤ ([] : List (Int × Int)).length +
                ((code.take (code.length - 1)).drop (start + 1)).length :=
              cmWalk_len _ _ _ _ _ hwalk
            have hbody :
                ((code.take (code.length - 1)).drop (start + 1)).length =
                  code.length - 1 - (start + 1) := by
              simp
            have hcm : (cmBuild deltas).length = deltas.length := by
              unfold cmBuild
              simp
            rw [← Option.some.inj h]
            have hfin : (cmBuild deltas ++
                [(⟨Op.Set, 0, 0⟩ : Instr)]).length = deltas.length + 1 := by
              simp [hcm]
            simp at hw
            omega
      · simp at h
  · simp at h

/-- With `loop_set_jump` off, a successful rewrite never lengthens the code
past the closer. -/
theorem optimise_some_len {code : List Instr} {start : Nat} {opts : Options}
    {r : List Instr} (hsj : opts.loop_set_jump = false)
    (hlen : start + 2 ≤ code.length)
    (h : optimise_loop code start opts = Except.ok (some r)) :
    start + r.length + 1 ≤ code.length := by
  unfold optimise_loop at h
  have hsj2 : setJump code start opts = Except.ok none := by
    unfold setJump
    rw [hsj]
    simp
  rw [hsj2] at h
  have h2 : ((setZero code start opts).orElse fun _ =>
      (copyMultiply code start opts).orElse fun _ =>
        (seekLr code start opts).orElse fun _ => none) = some r :=
    Except.ok.inj h
  cases hz : setZero code start opts with
  | some r1 =>
    rw [hz] at h2
    simp only [Option.orElse] at h2
    rw [← Option.some.inj h2, setZero_result hz]
    simpa using hlen
  | none =>
    rw [hz] at h2
    simp only [Option.orElse] at h2
    cases hc : copyMultiply code start opts with
    | some r2 =>
      rw [hc] at h2
      simp only [Option.orElse] at h2
      rw [← Option.some.inj h2]
      exact copyMultiply_len hc
    | none =>
      rw [hc] at h2
      simp only [Option.orElse] at h2
      cases hl : seekLr code start opts with
      | some r3 =>
        rw [hl] at h2
        simp only [Option.orElse] at h2
        rw [← Option.some.inj h2]
        have := seekLr_len hl
        omega
      | none =>
        rw [hl] at h2
        simp only [Option.orElse] at h2
        simp at h2

/-- The accumulator flush preserves the structural invariants. -/
theorem inv_flushInstr {opts : Options} {l : List Instr} {js : List Nat}
    {accOp : Op} {n : Nat}
    (hp : Paired l) (hj : JumpsOk l js) (hn : NoCross l js)
    (h1 : accOp ≠ Op.JZ) (h2 : accOp ≠ Op.JNZ) :
    Paired (flushInstr opts l accOp n) ∧
    JumpsOk (flushInstr opts l accOp n) js ∧
    NoCross (flushInstr opts l accOp n) js := by
  have happ : ∀ m : Nat, Paired (l ++ [(⟨accOp, m, 0⟩ : Instr)]) ∧
      JumpsOk (l ++ [(⟨accOp, m, 0⟩ : Instr)]) js ∧
      NoCross (l ++ [(⟨accOp, m, 0⟩ : Instr)]) js := fun m =>
    ⟨paired_append_safe hp (fun hh => absurd hh h1) h2,
     jumpsOk_append hj,
     noCross_append hn (fun hh => absurd hh h1)⟩
  unfold flushInstr
  split
  · split
    · exact ⟨paired_of_sig (sig_modArg _ _ _) hp,
        jumpsOk_of_sig (sig_modArg _ _ _) hj,
        noCross_of_sig (sig_modArg _ _ _) hn⟩
    · exact ⟨paired_of_sig (sig_modArg _ _ _) hp,
        jumpsOk_of_sig (sig_modArg _ _ _) hj,
        noCross_of_sig (sig_modArg _ _ _) hn⟩
    · exact happ n
  · exact happ n

/-- The non-empty-accumulator flush preserves the full invariant. -/
theorem inv_flushStateSome {opts : Options} {st : CState} {op accOp : Op}
    (h : Inv st) (h1 : accOp ≠ Op.JZ) (h2 : accOp ≠ Op.JNZ) :
    Inv (flushStateSome opts st op accOp) := by
  obtain ⟨hp, hj, hn, ha⟩ := h
  unfold flushStateSome
  split
  · obtain ⟨p1, p2, p3⟩ := inv_flushInstr hp hj hn h1 h2
    exact ⟨p1, p2, p3, fun op' h' => by simp at h'⟩
  · exact ⟨hp, hj, hn, ha⟩

/-- The flush stage preserves the full compiler-state invariant. -/
theorem inv_flushState {opts : Options} {st : CState} {op : Op}
    (h : Inv st) : Inv (flushState opts st op) := by
  unfold flushState
  split
  · rename_i accOp hacc
    obtain ⟨h1, h2⟩ := h.2.2.2 accOp hacc
    exact inv_flushStateSome h h1 h2
  · exact h

/-- The per-opcode stage preserves the invariant whenever it succeeds and
`loop_set_jump` is off, and raises the potential by at most one; below `2^31`
emitted instructions the wrapped `i32` offset arithmetic is exact and the
closing updates are the exact-offset ones. -/
theorem inv_emitOp {opts : Options} {st st' : CState} {op : Op}
    (hsj : opts.loop_set_jump = false)
    (hlen : st.instrs.length < 2 ^ 31)
    (h : Inv st) (heq : emitOp opts st op = Except.ok st') :
    Inv st' ∧ pot st' ≤ pot st + 1 := by
  obtain ⟨hp, hj, hn, ha⟩ := h
  have h2 : pot st = st.instrs.length + accBit st := rfl
  cases op with
  | Add =>
    rw [← Except.ok.inj heq]
    refine ⟨⟨hp, hj, hn, fun op' h' => by
      rw [← Option.some.inj h']
      exact ⟨by decide, by decide⟩⟩, ?_⟩
    show st.instrs.length + 1 ≤ pot st + 1
    omega
  | Sub =>
    rw [← Except.ok.inj heq]
    refine ⟨⟨hp, hj, hn, fun op' h' => by
      rw [← Option.some.inj h']
      exact ⟨by decide, by decide⟩⟩, ?_⟩
    show st.instrs.length + 1 ≤ pot st + 1
    omega
  | Left =>
    rw [← Except.ok.inj heq]
    refine ⟨⟨hp, hj, hn, fun op' h' => by
      rw [← Option.some.inj h']
      exact ⟨by decide, by decide⟩⟩, ?_⟩
    show st.instrs.length + 1 ≤ pot st + 1
    omega
  | Right =>
    rw [← Except.ok.inj heq]
    refine ⟨⟨hp, hj, hn, fun op' h' => by
      rw [← Option.some.inj h']
      exact ⟨by decide, by decide⟩⟩, ?_⟩
    show st.instrs.length + 1 ≤ pot st + 1
    omega
  | PutCh =>
    rw [← Except.ok.inj heq]
    refine ⟨⟨hp, hj, hn, fun op' h' => by
      rw [← Option.some.inj h']
      exact ⟨by decide, by decide⟩⟩, ?_⟩
    show st.instrs.length + 1 ≤ pot st + 1
    omega
  | GetCh =>
    rw [← Except.ok.inj heq]
    refine ⟨⟨hp, hj, hn, fun op' h' => by
      rw [← Option.some.inj h']
      exact ⟨by decide, by decide⟩⟩, ?_⟩
    show st.instrs.length + 1 ≤ pot st + 1
    omega
  | JZ =>
    rw [← Except.ok.inj heq]
    obtain ⟨p1, p2, p3⟩ := inv_push_jz hp hj hn
    refine ⟨⟨p1, p2, p3, ha⟩, ?_⟩
    show (st.instrs ++ [(⟨Op.JZ, 0, 0⟩ : Instr)]).length + accBit st ≤
      pot st + 1
    have h3 : (st.instrs ++ [(⟨Op.JZ, 0, 0⟩ : Instr)]).length =
        st.instrs.length + 1 := by simp
    omega
  | JNZ =>
    simp only [emitOp] at heq
    split at heq
    · simp at heq
    · rename_i start rest hjm
      rw [hjm] at hj hn
      obtain ⟨jz0, hjz01, _, _⟩ := hj.2 start (List.mem_cons_self start rest)
      have hstart : start < st.instrs.length := get?_some_lt hjz01
      have e1 : wrapI32 (toI32 start - toI32 st.instrs.length) =
          (start : Int) - (st.instrs.length : Int) := by
        rw [toI32_small (lt_trans hstart hlen), toI32_small hlen]
        exact wrapI32_small (by omega) (by omega)
      have e2 : wrapI32 (-((start : Int) - (st.instrs.length : Int))) =
          -((start : Int) - (st.instrs.length : Int)) :=
        wrapI32_small (by omega) (by omega)
      rw [e1, e2] at heq
      have h3 : (st.instrs ++
          [(⟨Op.JNZ, 0, (start : Int) - (st.instrs.length : Int)⟩ :
            Instr)]).length = st.instrs.length + 1 := by simp
      split at heq
      · simp at heq
      · rename_i hopt
        rw [← Except.ok.inj heq]
        obtain ⟨p1, p2, p3⟩ := inv_close_keep hp hj hn
        refine ⟨⟨p1, p2, p3, ha⟩, ?_⟩
        show (modOff (st.instrs ++
            [(⟨Op.JNZ, 0, (start : Int) - (st.instrs.length : Int)⟩ : Instr)])
            start (-((start : Int) - (st.instrs.length : Int)))).length +
            accBit st ≤ pot st + 1
        rw [length_modOff, h3]
        omega
      · rename_i r hopt
        rw [← Except.ok.inj heq]
        have hr := optimise_ok_some_nojump hsj hopt
        obtain ⟨p1, p2, p3⟩ := inv_close_rewrite hp hj hn hr
        rw [take_modOff_concat hstart]
        refine ⟨⟨p1, p2, p3, ha⟩, ?_⟩
        show (st.instrs.take start ++ r).length + accBit st ≤ pot st + 1
        have hlen2 : start + 2 ≤ (modOff (st.instrs ++
            [(⟨Op.JNZ, 0, (start : Int) - (st.instrs.length : Int)⟩ : Instr)])
            start (-((start : Int) - (st.instrs.length : Int)))).length := by
          rw [length_modOff, h3]
          omega
        have hrl := optimise_some_len hsj hlen2 hopt
        rw [length_modOff, h3] at hrl
        have h5 : (st.instrs.take start ++ r).length = start + r.length := by
          simp
          omega
        omega
  | J =>
    unfold emitOp at heq
    simp at heq
  | Set =>
    unfold emitOp at heq
    simp at heq
  | CMul =>
    unfold emitOp at heq
    simp at heq
  | CNMul =>
    unfold emitOp at heq
    simp at heq
  | SeekL =>
    unfold emitOp at heq
    simp at heq
  | SeekR =>
    unfold emitOp at heq
    simp at heq

/-- One character preserves the invariant whenever compilation proceeds, and
raises the potential by at most one. -/
theorem inv_compileChar {opts : Options} {st st' : CState} {c : Char}
    (hsj : opts.loop_set_jump = false) (hlen : pot st < 2 ^ 31)
    (h : Inv st) (heq : compileChar opts st c = Except.ok st') :
    Inv st' ∧ pot st' ≤ pot st + 1 := by
  unfold compileChar at heq
  split at heq
  · rw [← Except.ok.inj heq]
    exact ⟨h, by omega⟩
  · rename_i op hoc
    have hfs := pot_flushState opts st op
    have hai : (flushState opts st op).instrs.length < 2 ^ 31 := by
      have hle := len_le_pot (flushState opts st op)
      omega
    obtain ⟨h1, h2⟩ := inv_emitOp hsj hai (inv_flushState h) heq
    exact ⟨h1, by omega⟩

/-- The character loop of `compile` only ever returns `Paired` vectors when
`loop_set_jump` is off, provided the potential stays below `2^31` (each of
the remaining characters raises it by at most one). -/
theorem paired_compileGo {opts : Options} (hsj : opts.loop_set_jump = false) :
    ∀ (cs : List Char) (st : CState) (l : List Instr), Inv st →
      pot st + cs.length < 2 ^ 31 →
      compileGo opts cs st = CompileRes.ok l → Paired l := by
  intro cs
  induction cs with
  | nil =>
    intro st l h hpot heq
    obtain ⟨hp, hj, hn, ha⟩ := h
    unfold compileGo at heq
    split at heq
    · rename_i accOp hacc
      split at heq
      · obtain ⟨h1, h2⟩ := ha accOp hacc
        rw [← CompileRes.ok.inj heq]
        exact paired_append_safe hp (fun hh => absurd hh h1) h2
      · simp at heq
    · split at heq
      · rw [← CompileRes.ok.inj heq]
        exact hp
      · simp at heq
  | cons c cs ih =>
    intro st l h hpot heq
    unfold compileGo at heq
    split at heq
    · rename_i st1 hc
      have hcons : (c :: cs).length = cs.length + 1 := rfl
      obtain ⟨h1, h2⟩ := inv_compileChar hsj (by omega) h hc
      exact ih st1 l h1 (by omega) heq
    · simp at heq
    · simp at heq

/-- Claim C4, counterexample.  With `loop_set_zero` and `loop_set_jump`, the
source `+[-[-]]` compiles to `[Add 1, JZ(off 1), Sub 1]`: the `set_jump`
rewrite removed the closing `JNZ` but kept the opening `JZ`, whose positive
offset now points at a `Sub`. -/
theorem c4_counterexample_unmatched_jz :
    compile "+[-[-]]".data ⟨false, false, true, false, false, true⟩ =
      CompileRes.ok [⟨Op.Add, 1, 0⟩, ⟨Op.JZ, 0, 1⟩, ⟨Op.Sub, 1, 0⟩] ∧
    ¬ Paired [⟨Op.Add, 1, 0⟩, ⟨Op.JZ, 0, 1⟩, ⟨Op.Sub, 1, 0⟩] := by
  refine ⟨rfl, fun h => ?_⟩
  obtain ⟨p, hp1, hp2, _⟩ := h.1 1 ⟨Op.JZ, 0, 1⟩ rfl rfl (by decide)
  have hp1' : some (⟨Op.Sub, 1, 0⟩ : Instr) = some p := hp1
  rw [← Option.some.inj hp1'] at hp2
  simp at hp2

/-- Claim C4, amended: in every instruction vector produced by `compile` with
`loop_set_jump` disabled from a source of fewer than `2^31` characters, every
`JZ` with positive offset `d` is matched by a `JNZ` with offset `-d` at
distance `d`, and conversely every `JNZ` with negative offset `-d` is matched
by a `JZ` with offset `d` at distance `d` back.  (Below `2^31` characters no
intermediate instruction count reaches `2^31`, so the release-mode `i32`
offset arithmetic of the source never wraps.) -/
theorem c4_amended_jump_pairing (S : List Char) (opts : Options)
    (l : List Instr) (hsj : opts.loop_set_jump = false)
    (hS : S.length < 2 ^ 31)
    (h : compile S opts = CompileRes.ok l) : Paired l := by
  refine paired_compileGo hsj S ⟨[], [], none, 0⟩ l
    ⟨⟨?_, ?_⟩, ⟨?_, ?_⟩, ?_, ?_⟩ ?_ h
  · intro i ins hi
    simp at hi
  · intro j ins hj
    simp at hj
  · exact List.Pairwise.nil
  · intro s hs
    simp at hs
  · intro s hs
    simp at hs
  · intro op hacc
    simp at hacc
  · show pot ⟨[], [], none, 0⟩ + S.length < 2 ^ 31
    have h0 : pot ⟨[], [], none, 0⟩ = 0 := rfl
    omega

/-- Witness for the amended C4 theorem at a concrete input. -/
theorem c4_amended_witness :
    compile "[]".data ⟨false, false, false, false, false, false⟩ =
      CompileRes.ok [⟨Op.JZ, 0, 1⟩, ⟨Op.JNZ, 0, -1⟩] ∧
    Paired [⟨Op.JZ, 0, 1⟩, ⟨Op.JNZ, 0, -1⟩] :=
  ⟨rfl, c4_amended_jump_pairing "[]".data
    ⟨false, false, false, false, false, false⟩
    [⟨Op.JZ, 0, 1⟩, ⟨Op.JNZ, 0, -1⟩] rfl (by decide) rfl⟩

end Bfo
